import Mathlib

/-!
# helios-dns — verification of the scan-and-publish pipeline and DNS read path

Shallow embedding of the Go sources of `fmotalleb/helios-dns`:

* `server/record_updater.go` — per-domain scan pipeline (`processDomain`,
  `collectIPs`, `acceptIP`, `normalizeLimit`, `normalizeMaxWorkers`) and the
  worker/token discipline of `runWorker`;
* `server/server.go` (handler file) — `dnsHandler` with `UpdateRecords`,
  `Snapshot`, `ServeDNS`, and the TTL computation in `Serve`;
* `config/config.go` — `ScanConfig` fields used by the pipeline.

Go byte slices (`net.IP`) are modelled as `List Nat`; Go `int` as `Int`;
`time.Duration` as its nanosecond count (`Nat`, the config validates it
positive); Go maps as association lists with replace-or-append update.
Concurrency is modelled by the sequential order in which the admission mutex
(`okMu`) observes successful probes, and — for the worker budget — by explicit
event traces over a worker state machine.
-/

namespace HeliosDNS

/-- `net.IP`: a byte slice. The CIDR sampler produces 4-byte IPv4 addresses. -/
abbrev IP := List Nat

/-- Wall-clock instants (`time.Time`), only ever stored and compared. -/
abbrev Time := Nat

/-- `net.IP.String()` restricted to the shapes that occur here: a 4-byte

address renders as dotted decimal; any other shape is rendered by a stand-in
that still distinguishes distinct byte slices (the code only uses this value
as a deduplication key). -/
def ipString (ip : IP) : String :=
  match ip with
  | [a, b, c, d] =>
      toString a ++ "." ++ toString b ++ "." ++ toString c ++ "." ++ toString d
  | other => toString other

/-! ## Go map model

`map[string]V` as an association list: lookup finds the unique entry,
assignment replaces an existing entry or appends a fresh one. -/

/-- `m[k]` (comma-ok form): the value bound to `k`, if any. -/
def mapLookup {α : Type} (m : List (String × α)) (k : String) : Option α :=
  match m with
  | [] => none
  | (k', v) :: rest => if k' = k then some v else mapLookup rest k

/-- `m[k] = v`: replace the binding of `k`, or append one. -/
def mapUpdate {α : Type} (m : List (String × α)) (k : String) (v : α) :
    List (String × α) :=
  match m with
  | [] => [(k, v)]
  | (k', v') :: rest =>
      if k' = k then (k, v) :: rest else (k', v') :: mapUpdate rest k v

/-! ## Record store (`dnsHandler` in the handler file of package `server`)

Metric calls (`updateRecordMetrics`, `recordDNSRequest`, `recordDNSAnswer`,
`recordScanResult`) touch Prometheus counters only; they affect neither the
maps nor the reply, so the pure model omits them. -/

/-- `dnsHandler`: record store plus the static SNI side table and the reply
TTL computed once at startup. -/
structure DnsHandler where
  memory : List (String × List IP)
  updatedAt : List (String × Time)
  sniByDomain : List (String × String)
  ttl : Nat
deriving Repr, DecidableEq

/-- `(*dnsHandler).UpdateRecords`: under the write lock, overwrite the answer
set and the updated-at stamp for `key`. `now` is the `time.Now()` taken at the
top of the Go method. -/
def UpdateRecords (d : DnsHandler) (key : String) (records : List IP) (now : Time) :
    DnsHandler :=
  { d with
    memory := mapUpdate d.memory key records
    updatedAt := mapUpdate d.updatedAt key now }

/-- `recordSnapshot`: one entry of `(*dnsHandler).Snapshot`. -/
structure RecordSnapshot where
  IPs : List IP
  UpdatedAt : Time
deriving Repr, DecidableEq

/-- `(*dnsHandler).Snapshot`: under the read lock, deep-copy every published
entry (copying a byte slice is the identity on values); a missing updated-at
stamp reads as the zero `time.Time`. -/
def Snapshot (d : DnsHandler) : List (String × RecordSnapshot) :=
  d.memory.map (fun p =>
    (p.1, { IPs := p.2.map (fun ip => ip)
            UpdatedAt := (mapLookup d.updatedAt p.1).getD 0 }))

/-! ## Scan pipeline (`server/record_updater.go`) -/

/-- `normalizeLimit`: a non-positive `result_limit` falls back to 1. -/
def normalizeLimit (limit : Int) : Int :=
  if limit ≤ 0 then 1 else limit

/-- `normalizeMaxWorkers`: a non-positive `max_workers` falls back to 1. -/
def normalizeMaxWorkers (maxWorkers : Int) : Int :=
  if maxWorkers ≤ 0 then 1 else maxWorkers

/-- The fields of `config.ScanConfig` that the pipeline reads. -/
structure ScanConfig where
  Domain : String
  SNI : String
  Limit : Int
deriving Repr, DecidableEq

/-- The state guarded by `okMu` inside `collectIPs`, plus the per-domain
cancellation flag: the survivor list `okIPs`, the dedup key set `seen`
(a Go map used as a string set), and whether `cancel()` has fired. -/
structure CollectState where
  okIPs : List IP
  seen : List String
  cancelled : Bool
deriving Repr, DecidableEq

/-- `acceptIP`: one admission under `okMu`. Discard when the list is full or
the dotted-decimal key was already seen; otherwise append a defensive copy
(identity on values) and cancel the per-domain scope when the list just
reached `limit`. -/
def acceptIP (limit : Int) (st : CollectState) (ip : IP) : CollectState :=
  let ipCopy := ip.map (fun b => b)
  if (st.okIPs.length : Int) ≥ limit then st
  else
    let key := ipString ipCopy
    if key ∈ st.seen then st
    else
      let okIPs := st.okIPs ++ [ipCopy]
      { okIPs := okIPs
        seen := key :: st.seen
        cancelled := if (okIPs.length : Int) = limit then true else st.cancelled }

/-- `collectIPs`, observed through the admission mutex: producers and workers
interleave nondeterministically, but every successful probe reaches `acceptIP`
under `okMu`, so a cycle is determined by the sequence `successes` of
successful-probe IPs in the order the mutex grants admission. The initial
state is the empty list, the empty `seen` set, and an uncancelled scope. -/
def collectIPs (limit : Int) (successes : List IP) : CollectState :=
  successes.foldl (acceptIP limit) ⟨[], [], false⟩

/-- The errors `processDomain` can return. -/
inductive CycleError where
  | vmBuildFailed
  | samplesFailed
deriving Repr, DecidableEq

/-- The environment of one per-domain cycle: whether `BuildVM` and
`ReadCIDRsSamples` succeed, the successful-probe IPs in admission order, and
the value of the `ctx.Err() != nil` test that `processDomain` performs after
`collectIPs` returns (context errors are monotone, so a parent cancelled any
time before that test is observed there). -/
structure CycleInput where
  vmOk : Bool
  samplesOk : Bool
  successes : List IP
  parentCancelled : Bool
deriving Repr, DecidableEq

/-- `processDomain`: build the VM, normalize the limit, read the samplers,
collect survivors, then re-check the parent context — publishing via
`UpdateRecords` only when it is still alive. Returns the record store it
leaves behind and the error, mirroring the Go control flow. -/
def processDomain (cfg : ScanConfig) (inp : CycleInput) (h : DnsHandler) (now : Time) :
    DnsHandler × Option CycleError :=
  if inp.vmOk = false then (h, some .vmBuildFailed)
  else
    let limit := normalizeLimit cfg.Limit
    if inp.samplesOk = false then (h, some .samplesFailed)
    else
      let okIPs := (collectIPs limit inp.successes).okIPs
      if inp.parentCancelled then (h, none)
      else (UpdateRecords h cfg.Domain okIPs now, none)

/-! ## DNS responder read path (`ServeDNS`) -/

/-- `dns.TypeA`. -/
def typeA : Nat := 1

/-- `dns.TypeAAAA`, used only to exercise the non-A branch. -/
def typeAAAA : Nat := 28

/-- `dns.ClassINET`. -/
def classINET : Nat := 1

/-- `dns.RcodeSuccess` (NOERROR). -/
def rcodeSuccess : Nat := 0

/-- `dns.Question`: the fields `ServeDNS` reads. -/
structure Question where
  Name : String
  Qtype : Nat
  Qclass : Nat
deriving Repr, DecidableEq

/-- One `dns.A` resource record, header flattened
(`Hdr.Name`, `Hdr.Rrtype`, `Hdr.Class`, `Hdr.Ttl`, and the address `A`). -/
structure ARecord where
  Name : String
  Rrtype : Nat
  Class : Nat
  Ttl : Nat
  A : IP
deriving Repr, DecidableEq

/-- `dns.Msg`: the parts the handler touches. Only `A` records are ever
appended, so `Answer` holds `ARecord`s. -/
structure Msg where
  Question : List Question
  Answer : List ARecord
  Rcode : Nat
deriving Repr, DecidableEq

/-- `msg.SetReply(r)`: fresh reply carrying the request's questions, no
answers, and `RcodeSuccess`. -/
def setReply (r : Msg) : Msg :=
  { Question := r.Question, Answer := [], Rcode := rcodeSuccess }

/-- `(*dnsHandler).ServeDNS`, as the reply it writes: empty reply on a
zero-question message, a non-`A` first question, or a store miss; on a hit,
one `A` record per published IP, appended in published order, class `IN`,
TTL `d.ttl`. -/
def serveDNS (d : DnsHandler) (r : Msg) : Msg :=
  let msg := setReply r
  match r.Question with
  | [] => msg
  | q :: _ =>
      if q.Qtype ≠ typeA then msg
      else
        match mapLookup d.memory q.Name with
        | none => msg
        | some res =>
            { msg with
              Answer := res.map (fun addr =>
                { Name := q.Name, Rrtype := typeA, Class := classINET,
                  Ttl := d.ttl, A := addr }) }

/-! ## Startup (`Serve`) -/

/-- The fields of `config.Config` the server wiring reads. `UpdateInterval`
is a `time.Duration`, kept as its nanosecond count (validated positive). -/
structure Config where
  Listen : String
  UpdateIntervalNs : Nat
  Domains : List ScanConfig
  MaxWorkers : Int
deriving Repr, DecidableEq

/-- `uint32(cfg.UpdateInterval.Seconds())` for a positive duration below
2^32 seconds: the Go float-to-integer conversion discards the fractional
part, i.e. whole nanoseconds divided by 10^9. -/
def durationSecondsTrunc (ns : Nat) : Nat :=
  ns / 1000000000

/-- The `dnsHandler` literal built at the top of `Serve`: empty maps, the SNI
side table filled from the configured domains, and the truncated TTL. -/
def mkHandler (cfg : Config) : DnsHandler :=
  { memory := []
    updatedAt := []
    sniByDomain := cfg.Domains.foldl (fun m d => mapUpdate m d.Domain d.SNI) []
    ttl := durationSecondsTrunc cfg.UpdateIntervalNs }

/-! ## Record store operation traces (for key-set monotonicity) -/

/-- The operations the process ever performs on one `dnsHandler`. -/
inductive StoreOp where
  | update (key : String) (records : List IP) (now : Time)
  | serve (r : Msg)
  | snapshot
deriving Repr, DecidableEq

/-- Effect of one operation on the store. `ServeDNS` and `Snapshot` take only
the read lock and never assign into the maps, so they leave the handler
unchanged; their outputs are computed by `serveDNS` and `Snapshot` above. -/
def applyOp (d : DnsHandler) : StoreOp → DnsHandler
  | .update k recs now => UpdateRecords d k recs now
  | .serve _ => d
  | .snapshot => d

/-! ## CIDR sampler

`ScanConfig.ReadCIDRsSamples` (config package) maps
`cidr.Iterator.SeqSampled(chance, max, min)` over the configured CIDRs. -/

/-- Modelled from the spec: `SeqSampled` lives in the external
`mithra/cidr` dependency and is absent from the sources. Spec §4.1: the
network is enumerated deterministically; the first `minN` addresses are
emitted unconditionally; every later address is emitted independently with
probability `chance`; emission stops once `maxN` addresses have been produced
(`maxN = 0`: no upper bound) or the network is exhausted. `emitAt i`
abstracts the Bernoulli draw for the address at position `i`; `chance = 0`
is the constantly-false draw. `idx` is the position in the network and
`produced` the number of addresses emitted so far. -/
def sampleSeqAux (emitAt : Nat → Bool) (maxN minN : Nat) :
    List IP → Nat → Nat → List IP
  | [], _, _ => []
  | ip :: rest, idx, produced =>
      if 0 < maxN ∧ maxN ≤ produced then []
      else if idx < minN ∨ emitAt idx then
        ip :: sampleSeqAux emitAt maxN minN rest (idx + 1) (produced + 1)
      else
        sampleSeqAux emitAt maxN minN rest (idx + 1) produced

/-- Modelled from the spec: the full sampled sequence over the enumerated
`network`, starting at position 0 with nothing produced. -/
def sampleSeq (emitAt : Nat → Bool) (maxN minN : Nat) (network : List IP) :
    List IP :=
  sampleSeqAux emitAt maxN minN network 0 0

/-! ## Worker budget (`runWorker` and the token channel)

`recordUpdater` allocates one buffered channel
`workerTokens := make(chan struct, maxWorkers)` shared by every domain.
Each `runWorker` loop iteration is `recvIP`; `acquireToken` (a send into the
buffered channel, blocking while it is full); `vm.ExecuteIP`; `releaseToken`
(a receive). We model each worker as a four-state machine and a run of the
whole process as an arbitrary interleaving of worker events, the semaphore
blocking an `acquire` whenever `cap` tokens are out. -/

/-- Phases of one `runWorker` iteration. -/
inductive WEvent where
  | acquire
  | execStart
  | execEnd
  | release
deriving Repr, DecidableEq

/-- Worker-local state: `idle` (between iterations, or blocked in `recvIP` /
`acquireToken`); `holding` (token acquired, probe not started); `executing`
(inside `vm.ExecuteIP`); `done` (probe returned, token not yet released). -/
inductive WState where
  | idle
  | holding
  | executing
  | done
deriving Repr, DecidableEq

/-- The per-worker state machine of `runWorker`: a token is acquired before
the probe starts and released only after it returns, regardless of outcome. -/
def wstep : WState → WEvent → Option WState
  | .idle, .acquire => some .holding
  | .holding, .execStart => some .executing
  | .executing, .execEnd => some .done
  | .done, .release => some .idle
  | _, _ => none

/-- `true` for a worker currently inside `vm.ExecuteIP`. -/
def isExecuting : WState → Bool
  | .executing => true
  | _ => false

/-- `true` for a worker holding a token of the budget channel. -/
def holdsToken : WState → Bool
  | .idle => false
  | _ => true

/-- Global state of a run: every worker's phase and the number of tokens in
the budget channel. -/
structure SemState where
  ws : List WState
  sem : Nat
deriving Repr, DecidableEq

/-- One scheduler step: worker `i` performs event `ev`. The step is enabled
only if the worker's own machine allows it and, for `acquire`, the buffered
channel has room (`sem < cap`); `release` takes one token back out. -/
def stepTrace (cap : Nat) (g : SemState) (e : Nat × WEvent) : Option SemState :=
  match e with
  | (i, ev) =>
      if h : i < g.ws.length then
        match wstep (g.ws.get ⟨i, h⟩) ev with
        | none => none
        | some s' =>
            match ev with
            | .acquire =>
                if g.sem < cap then some ⟨g.ws.set i s', g.sem + 1⟩ else none
            | .release => some ⟨g.ws.set i s', g.sem - 1⟩
            | _ => some ⟨g.ws.set i s', g.sem⟩
      else none

/-- Run an interleaving from a given global state; `none` means the schedule
was not executable. -/
def runTraceFrom (cap : Nat) (g : SemState) : List (Nat × WEvent) → Option SemState
  | [] => some g
  | e :: rest =>
      match stepTrace cap g e with
      | none => none
      | some g1 => runTraceFrom cap g1 rest

/-- Run a whole interleaving from the initial state (`n` idle workers, empty
token channel). -/
def runTrace (cap : Nat) (n : Nat) (tr : List (Nat × WEvent)) : Option SemState :=
  runTraceFrom cap ⟨List.replicate n .idle, 0⟩ tr

/-! ## Invariants (statements) -/

/-- Invariant of the admission state under `okMu`: the survivor list never
exceeds `limit`, every survivor's key is registered in `seen`, the keys are
pairwise distinct, and a full list implies the scope was cancelled. -/
def CollectInv (limit : Int) (st : CollectState) : Prop :=
  (st.okIPs.length : Int) ≤ limit
  ∧ (∀ ip ∈ st.okIPs, ipString ip ∈ st.seen)
  ∧ (st.okIPs.map ipString).Nodup
  ∧ ((st.okIPs.length : Int) = limit → st.cancelled = true)

/-- Invariant of a run: the token count equals the number of token-holding
workers and never exceeds the channel capacity. -/
def SemInv (cap : Nat) (g : SemState) : Prop :=
  g.sem = g.ws.countP (fun s => holdsToken s) ∧ g.sem ≤ cap

/-! ## Theorems -/

theorem mapLookup_mapUpdate_self {α : Type} (m : List (String × α)) (k : String) (v : α) :
    mapLookup (mapUpdate m k v) k = some v := by
  induction m with
  | nil => simp [mapUpdate, mapLookup]
  | cons hd tl ih =>
      obtain ⟨k', v'⟩ := hd
      by_cases h : k' = k
      · simp [mapUpdate, mapLookup, h]
      · simp [mapUpdate, mapLookup, h, ih]

theorem mapLookup_mapUpdate_ne {α : Type} (m : List (String × α)) (k k' : String) (v : α)
    (h : k' ≠ k) : mapLookup (mapUpdate m k v) k' = mapLookup m k' := by
  induction m with
  | nil => simp [mapUpdate, mapLookup, Ne.symm h]
  | cons hd tl ih =>
      obtain ⟨k0, v0⟩ := hd
      by_cases h0 : k0 = k
      · subst h0
        simp [mapUpdate, mapLookup, Ne.symm h]
      · simp [mapUpdate, mapLookup, h0, ih]

theorem mapUpdate_mapUpdate_same {α : Type} (m : List (String × α)) (k : String) (v w : α) :
    mapUpdate (mapUpdate m k v) k w = mapUpdate m k w := by
  induction m with
  | nil => simp [mapUpdate]
  | cons hd tl ih =>
      obtain ⟨k', v'⟩ := hd
      by_cases h : k' = k
      · simp [mapUpdate, h]
      · simp [mapUpdate, h, ih]

theorem mapLookup_mapUpdate_isSome {α : Type} (m : List (String × α)) (k k' : String) (v : α)
    (h : (mapLookup m k').isSome) : (mapLookup (mapUpdate m k v) k').isSome := by
  by_cases hk : k' = k
  · subst hk; rw [mapLookup_mapUpdate_self]; rfl
  · rwa [mapLookup_mapUpdate_ne m k k' v hk]

theorem one_le_normalizeLimit (l : Int) : 1 ≤ normalizeLimit l := by
  unfold normalizeLimit
  split <;> omega

theorem acceptIP_keeps_inv {limit : Int} {st : CollectState} (ip : IP)
    (hst : CollectInv limit st) : CollectInv limit (acceptIP limit st ip) := by
  obtain ⟨hlen, hseen, hnodup, hcancel⟩ := hst
  by_cases hfull : (st.okIPs.length : Int) ≥ limit
  · have heq : acceptIP limit st ip = st := by
      simp [acceptIP, hfull]
    rw [heq]
    exact ⟨hlen, hseen, hnodup, hcancel⟩
  · by_cases hkey : ipString ip ∈ st.seen
    · have heq : acceptIP limit st ip = st := by
        simp [acceptIP, hfull, hkey]
      rw [heq]
      exact ⟨hlen, hseen, hnodup, hcancel⟩
    · have heq : acceptIP limit st ip =
          { okIPs := st.okIPs ++ [ip]
            seen := ipString ip :: st.seen
            cancelled :=
              if ((st.okIPs ++ [ip]).length : Int) = limit then true
              else st.cancelled } := by
        simp [acceptIP, hfull, hkey]
      rw [heq]
      have hlt : (st.okIPs.length : Int) < limit := lt_of_not_ge hfull
      refine ⟨?_, ?_, ?_, ?_⟩
      · simp only [List.length_append, List.length_singleton]
        push_cast
        omega
      · intro x hx
        rcases List.mem_append.mp hx with hx | hx
        · exact List.mem_cons_of_mem _ (hseen x hx)
        · rcases List.mem_singleton.mp hx with rfl
          exact List.mem_cons_self _ _
      · rw [List.map_append]
        rw [List.nodup_append]
        refine ⟨hnodup, List.nodup_singleton _, ?_⟩
        intro a ha hb
        rcases List.mem_singleton.mp hb with rfl
        rcases List.mem_map.mp ha with ⟨y, hy, hya⟩
        exact hkey (hya ▸ hseen y hy)
      · intro hfull2
        rw [if_pos hfull2]

theorem collectIPs_inv (limit : Int) (hlim : 1 ≤ limit) (successes : List IP) :
    CollectInv limit (collectIPs limit successes) := by
  have hinit : CollectInv limit ⟨[], [], false⟩ := by
    refine ⟨by simp; omega, by simp, by simp, ?_⟩
    intro hzero
    simp only [List.length_nil, Nat.cast_zero] at hzero
    omega
  have general : ∀ (l : List IP) (st : CollectState), CollectInv limit st →
      CollectInv limit (l.foldl (acceptIP limit) st) := by
    intro l
    induction l with
    | nil => intro st hst; exact hst
    | cons hd tl ih =>
        intro st hst
        exact ih _ (acceptIP_keeps_inv hd hst)
  exact general successes _ hinit

/-- C1: for every refresh cycle that publishes a list of `L` IPs for a domain
whose result limit is `K ≥ 1`, the published list satisfies `L ≤ K` and its
addresses are pairwise distinct (deduplicated by the string form of the IP):
after `processDomain`, the store's entry for the domain is either the
untouched previous one or a list with exactly these properties. -/
theorem published_list_bounded_and_distinct
    (cfg : ScanConfig) (inp : CycleInput) (h : DnsHandler) (now : Time) (ips : List IP)
    (hK : 1 ≤ cfg.Limit)
    (hl : mapLookup (processDomain cfg inp h now).1.memory cfg.Domain = some ips) :
    mapLookup h.memory cfg.Domain = some ips
    ∨ ((ips.length : Int) ≤ cfg.Limit
        ∧ (ips.map ipString).Nodup ∧ ips.Nodup) := by
  have hnl : normalizeLimit cfg.Limit = cfg.Limit := by
    unfold normalizeLimit
    rw [if_neg (by omega)]
  by_cases hvm : inp.vmOk = false
  · left
    have heq : (processDomain cfg inp h now).1 = h := by simp [processDomain, hvm]
    rwa [heq] at hl
  · by_cases hs : inp.samplesOk = false
    · left
      have heq : (processDomain cfg inp h now).1 = h := by
        simp [processDomain, hvm, hs]
      rwa [heq] at hl
    · by_cases hp : inp.parentCancelled = true
      · left
        have heq : (processDomain cfg inp h now).1 = h := by
          simp [processDomain, hvm, hs, hp]
        rwa [heq] at hl
      · right
        have hpd : (processDomain cfg inp h now).1 =
            UpdateRecords h cfg.Domain
              (collectIPs (normalizeLimit cfg.Limit) inp.successes).okIPs now := by
          simp [processDomain, hvm, hs, hp]
        rw [hpd] at hl
        have hmem : (UpdateRecords h cfg.Domain
            (collectIPs (normalizeLimit cfg.Limit) inp.successes).okIPs now).memory
            = mapUpdate h.memory cfg.Domain
                (collectIPs (normalizeLimit cfg.Limit) inp.successes).okIPs := rfl
        rw [hmem, mapLookup_mapUpdate_self] at hl
        obtain ⟨hlen, _, hnodup, _⟩ :=
          collectIPs_inv (normalizeLimit cfg.Limit) (one_le_normalizeLimit _) inp.successes
        have hips : ips = (collectIPs (normalizeLimit cfg.Limit) inp.successes).okIPs :=
          (Option.some.inj hl).symm
        rw [hips, hnl] at *
        exact ⟨hlen, hnodup, List.Nodup.of_map ipString hnodup⟩

/-- Witness for C1 at a concrete cycle: limit 2, successes containing a
duplicate and an overflow candidate. -/
theorem published_list_bounded_and_distinct_witness :
    mapLookup (⟨[], [], [], 600⟩ : DnsHandler).memory "edge.example.com."
      = some [[198, 51, 100, 1], [198, 51, 100, 2]]
    ∨ ((([[198, 51, 100, 1], [198, 51, 100, 2]] : List IP).length : Int) ≤ 2
        ∧ (([[198, 51, 100, 1], [198, 51, 100, 2]] : List IP).map ipString).Nodup
        ∧ ([[198, 51, 100, 1], [198, 51, 100, 2]] : List IP).Nodup) :=
  published_list_bounded_and_distinct
    ⟨"edge.example.com.", "origin.example.com", 2⟩
    ⟨true, true, [[198, 51, 100, 1], [198, 51, 100, 1], [198, 51, 100, 2], [198, 51, 100, 3]], false⟩
    ⟨[], [], [], 600⟩ 5 [[198, 51, 100, 1], [198, 51, 100, 2]]
    (by decide) (by decide)

/-- C2: a cycle whose parent context is already cancelled at the
post-collection check does not invoke `UpdateRecords`: the record store is
returned exactly as it was, so no partially filled survivor list is
published. (Context errors are monotone, so a parent cancelled at any
earlier point of the cycle is observed by this check.) -/
theorem parent_cancelled_skips_publish
    (cfg : ScanConfig) (inp : CycleInput) (h : DnsHandler) (now : Time)
    (hc : inp.parentCancelled = true) :
    (processDomain cfg inp h now).1 = h := by
  by_cases hvm : inp.vmOk = false
  · simp [processDomain, hvm]
  · by_cases hs : inp.samplesOk = false
    · simp [processDomain, hvm, hs]
    · simp [processDomain, hvm, hs, hc]

/-- Witness for C2: a cancelled cycle with two survivors publishes nothing. -/
theorem parent_cancelled_skips_publish_witness :
    (processDomain ⟨"edge.example.com.", "", 4⟩
      ⟨true, true, [[198, 51, 100, 1], [198, 51, 100, 2]], true⟩
      ⟨[("old.example.com.", [[203, 0, 113, 9]])], [("old.example.com.", 1)], [], 600⟩ 7).1
    = ⟨[("old.example.com.", [[203, 0, 113, 9]])], [("old.example.com.", 1)], [], 600⟩ :=
  parent_cancelled_skips_publish _ _ _ _ (by decide)

/-- C3: when the survivor count reaches the (normalized) result limit, the
per-domain scope is cancelled, yet the cycle succeeds: with the parent still
alive, the full survivor list is published to the record store and the cycle
returns no error. -/
theorem limit_reached_cancels_and_publishes
    (cfg : ScanConfig) (inp : CycleInput) (h : DnsHandler) (now : Time)
    (hvm : inp.vmOk = true) (hs : inp.samplesOk = true)
    (hp : inp.parentCancelled = false)
    (hfull : ((collectIPs (normalizeLimit cfg.Limit) inp.successes).okIPs.length : Int)
        = normalizeLimit cfg.Limit) :
    (collectIPs (normalizeLimit cfg.Limit) inp.successes).cancelled = true
    ∧ mapLookup (processDomain cfg inp h now).1.memory cfg.Domain
        = some (collectIPs (normalizeLimit cfg.Limit) inp.successes).okIPs
    ∧ (processDomain cfg inp h now).2 = none := by
  obtain ⟨_, _, _, hcan⟩ :=
    collectIPs_inv (normalizeLimit cfg.Limit) (one_le_normalizeLimit _) inp.successes
  have hpd : processDomain cfg inp h now =
      (UpdateRecords h cfg.Domain
        (collectIPs (normalizeLimit cfg.Limit) inp.successes).okIPs now, none) := by
    simp [processDomain, hvm, hs, hp]
  refine ⟨hcan hfull, ?_, ?_⟩
  · rw [hpd]
    exact mapLookup_mapUpdate_self _ _ _
  · rw [hpd]

/-- Witness for C3: limit 2 reached out of three distinct successes. -/
theorem limit_reached_cancels_and_publishes_witness :
    (collectIPs (normalizeLimit 2)
        [[198, 51, 100, 1], [198, 51, 100, 2], [198, 51, 100, 3]]).cancelled = true
    ∧ mapLookup (processDomain ⟨"edge.example.com.", "", 2⟩
        ⟨true, true, [[198, 51, 100, 1], [198, 51, 100, 2], [198, 51, 100, 3]], false⟩
        ⟨[], [], [], 600⟩ 9).1.memory "edge.example.com."
        = some (collectIPs (normalizeLimit 2)
            [[198, 51, 100, 1], [198, 51, 100, 2], [198, 51, 100, 3]]).okIPs
    ∧ (processDomain ⟨"edge.example.com.", "", 2⟩
        ⟨true, true, [[198, 51, 100, 1], [198, 51, 100, 2], [198, 51, 100, 3]], false⟩
        ⟨[], [], [], 600⟩ 9).2 = none :=
  limit_reached_cancels_and_publishes ⟨"edge.example.com.", "", 2⟩
    ⟨true, true, [[198, 51, 100, 1], [198, 51, 100, 2], [198, 51, 100, 3]], false⟩
    ⟨[], [], [], 600⟩ 9 (by decide) (by decide) (by decide) (by decide)

/-- `Snapshot` projected on IP lists is exactly the memory map (deep copy is
the identity on values). -/
theorem snapshot_ips_proj (d : DnsHandler) :
    (Snapshot d).map (fun p => (p.1, p.2.IPs)) = d.memory := by
  unfold Snapshot
  generalize d.memory = l
  induction l with
  | nil => rfl
  | cons hd tl ih => simp_all

/-- `serveDNS` reads only `memory` and `ttl`. -/
theorem serveDNS_congr (d1 d2 : DnsHandler) (hm : d1.memory = d2.memory)
    (ht : d1.ttl = d2.ttl) (r : Msg) : serveDNS d1 r = serveDNS d2 r := by
  unfold serveDNS
  rw [hm, ht]

/-- C5 fails on the code: `Serve` computes the reply TTL as
`uint32(cfg.UpdateInterval.Seconds())`, which truncates a sub-second interval
to 0; answers for a hit then carry TTL 0, not the floor of 1 the spec
mandates. Evaluated at the failing input `update_interval = 500ms`. -/
theorem ttl_subsecond_truncates_to_zero :
    durationSecondsTrunc 500000000 = 0
    ∧ ((serveDNS
          (UpdateRecords
            (mkHandler ⟨"127.0.0.1:5353", 500000000, [⟨"edge.example.com.", "", 4⟩], 50⟩)
            "edge.example.com." [[198, 51, 100, 1]] 0)
          ⟨[⟨"edge.example.com.", typeA, classINET⟩], [], 0⟩).Answer
        = [⟨"edge.example.com.", typeA, classINET, 0, [198, 51, 100, 1]⟩]) := by
  decide

/-- C6: a hit (first question of type `A`, name published) is answered with
exactly the published IPs, one `A` record per IP with class `IN`, in
published order. -/
theorem serveDNS_hit_exact_answers
    (d : DnsHandler) (r : Msg) (q : Question) (qs : List Question) (ips : List IP)
    (hq : r.Question = q :: qs) (ht : q.Qtype = typeA)
    (hl : mapLookup d.memory q.Name = some ips) :
    (serveDNS d r).Answer
      = ips.map (fun addr =>
          { Name := q.Name, Rrtype := typeA, Class := classINET,
            Ttl := d.ttl, A := addr })
    ∧ (serveDNS d r).Answer.map ARecord.A = ips := by
  have hbody : (serveDNS d r).Answer
      = ips.map (fun addr =>
          { Name := q.Name, Rrtype := typeA, Class := classINET,
            Ttl := d.ttl, A := addr }) := by
    simp [serveDNS, setReply, hq, ht, hl]
  refine ⟨hbody, ?_⟩
  rw [hbody, List.map_map]
  have hcomp : (ARecord.A ∘ fun addr : IP =>
      ({ Name := q.Name, Rrtype := typeA, Class := classINET,
         Ttl := d.ttl, A := addr } : ARecord)) = fun addr => addr := by
    funext addr
    rfl
  rw [hcomp, List.map_id']

/-- Witness for C6 on a two-address publication. -/
theorem serveDNS_hit_exact_answers_witness :
    (serveDNS (⟨[("edge.example.com.", [[198, 51, 100, 1], [198, 51, 100, 2]])], [], [], 600⟩ : DnsHandler)
        ⟨[⟨"edge.example.com.", typeA, classINET⟩], [], 0⟩).Answer
      = ([[198, 51, 100, 1], [198, 51, 100, 2]] : List IP).map (fun addr =>
          { Name := "edge.example.com.", Rrtype := typeA, Class := classINET,
            Ttl := 600, A := addr })
    ∧ (serveDNS (⟨[("edge.example.com.", [[198, 51, 100, 1], [198, 51, 100, 2]])], [], [], 600⟩ : DnsHandler)
        ⟨[⟨"edge.example.com.", typeA, classINET⟩], [], 0⟩).Answer.map ARecord.A
      = [[198, 51, 100, 1], [198, 51, 100, 2]] :=
  serveDNS_hit_exact_answers
    ⟨[("edge.example.com.", [[198, 51, 100, 1], [198, 51, 100, 2]])], [], [], 600⟩
    ⟨[⟨"edge.example.com.", typeA, classINET⟩], [], 0⟩
    ⟨"edge.example.com.", typeA, classINET⟩ [] [[198, 51, 100, 1], [198, 51, 100, 2]]
    rfl rfl (by decide)

/-- C7: a zero-question message, a non-`A` first question, or an unknown name
all get a reply with zero answers and rcode NOERROR (never NXDOMAIN). -/
theorem serveDNS_fallback_empty_noerror
    (d : DnsHandler) (r : Msg)
    (hcase : r.Question = []
      ∨ ∃ q qs, r.Question = q :: qs
          ∧ (q.Qtype ≠ typeA ∨ mapLookup d.memory q.Name = none)) :
    (serveDNS d r).Answer = [] ∧ (serveDNS d r).Rcode = rcodeSuccess := by
  rcases hcase with h0 | ⟨q, qs, hq, hrest⟩
  · simp [serveDNS, setReply, h0]
  · rcases hrest with hns | hmiss
    · simp [serveDNS, setReply, hq, hns]
    · by_cases ht : q.Qtype ≠ typeA
      · simp [serveDNS, setReply, hq, ht]
      · simp [serveDNS, setReply, hq, ht, hmiss]

/-- Witness for C7: an `AAAA` query for a published name. -/
theorem serveDNS_fallback_empty_noerror_witness :
    (serveDNS (⟨[("edge.example.com.", [[198, 51, 100, 1]])], [], [], 600⟩ : DnsHandler)
        ⟨[⟨"edge.example.com.", typeAAAA, classINET⟩], [], 0⟩).Answer = []
    ∧ (serveDNS (⟨[("edge.example.com.", [[198, 51, 100, 1]])], [], [], 600⟩ : DnsHandler)
        ⟨[⟨"edge.example.com.", typeAAAA, classINET⟩], [], 0⟩).Rcode = rcodeSuccess :=
  serveDNS_fallback_empty_noerror
    ⟨[("edge.example.com.", [[198, 51, 100, 1]])], [], [], 600⟩
    ⟨[⟨"edge.example.com.", typeAAAA, classINET⟩], [], 0⟩
    (Or.inr ⟨⟨"edge.example.com.", typeAAAA, classINET⟩, [],
      rfl, Or.inl (by decide)⟩)

/-- C8: publishing the same list twice for the same name is observationally
equivalent to publishing it once, except for the updated-at timestamp: the
memory map, the snapshot's IP contents, and every DNS reply are identical. -/
theorem publish_same_list_idempotent
    (d : DnsHandler) (k : String) (ips : List IP) (t1 t2 : Time) :
    (UpdateRecords (UpdateRecords d k ips t1) k ips t2).memory
      = (UpdateRecords d k ips t1).memory
    ∧ (Snapshot (UpdateRecords (UpdateRecords d k ips t1) k ips t2)).map
        (fun p => (p.1, p.2.IPs))
      = (Snapshot (UpdateRecords d k ips t1)).map (fun p => (p.1, p.2.IPs))
    ∧ ∀ r, serveDNS (UpdateRecords (UpdateRecords d k ips t1) k ips t2) r
        = serveDNS (UpdateRecords d k ips t1) r := by
  have hmem : (UpdateRecords (UpdateRecords d k ips t1) k ips t2).memory
      = (UpdateRecords d k ips t1).memory := by
    show mapUpdate (mapUpdate d.memory k ips) k ips = mapUpdate d.memory k ips
    exact mapUpdate_mapUpdate_same d.memory k ips ips
  refine ⟨hmem, ?_, ?_⟩
  · rw [snapshot_ips_proj, snapshot_ips_proj, hmem]
  · intro r
    exact serveDNS_congr _ _ hmem rfl r

/-- C10: no store operation removes a domain key: `UpdateRecords` only
inserts or overwrites, `ServeDNS` and `Snapshot` are read-only, so a domain
that has an entry keeps one across any sequence of operations. -/
theorem store_keys_monotone
    (d : DnsHandler) (ops : List StoreOp) (k : String)
    (h : (mapLookup d.memory k).isSome) :
    (mapLookup (ops.foldl applyOp d).memory k).isSome := by
  induction ops generalizing d with
  | nil => exact h
  | cons op rest ih =>
      simp only [List.foldl_cons]
      cases op with
      | update key recs now =>
          exact ih _ (mapLookup_mapUpdate_isSome d.memory key k recs h)
      | serve r => exact ih _ h
      | snapshot => exact ih _ h

/-- Witness for C10: an entry survives an overwrite, a serve, and a snapshot. -/
theorem store_keys_monotone_witness :
    (mapLookup
      (([StoreOp.update "edge.example.com." [[198, 51, 100, 2]] 3,
         StoreOp.serve ⟨[⟨"edge.example.com.", typeA, classINET⟩], [], 0⟩,
         StoreOp.snapshot].foldl applyOp
        ⟨[("edge.example.com.", [[198, 51, 100, 1]])], [("edge.example.com.", 1)], [], 600⟩).memory)
      "edge.example.com.").isSome :=
  store_keys_monotone
    ⟨[("edge.example.com.", [[198, 51, 100, 1]])], [("edge.example.com.", 1)], [], 600⟩
    [StoreOp.update "edge.example.com." [[198, 51, 100, 2]] 3,
     StoreOp.serve ⟨[⟨"edge.example.com.", typeA, classINET⟩], [], 0⟩,
     StoreOp.snapshot]
    "edge.example.com." (by decide)

/-- With the constantly-false draw, a run of the sampler that has already
produced `min idx m` addresses returns exactly the next `m - idx` addresses. -/
theorem sampleSeqAux_chance_zero (maxN m : Nat) (hm : maxN = 0 ∨ m ≤ maxN) :
    ∀ (net : List IP) (idx produced : Nat), produced = min idx m →
      sampleSeqAux (fun _ => false) maxN m net idx produced = net.take (m - idx) := by
  intro net
  induction net with
  | nil =>
      intro idx produced hp
      simp [sampleSeqAux]
  | cons ip rest ih =>
      intro idx produced hp
      by_cases hidx : idx < m
      · have hguard : ¬ (0 < maxN ∧ maxN ≤ produced) := by omega
        have hm1 : m - idx = (m - (idx + 1)) + 1 := by omega
        simp only [sampleSeqAux, if_neg hguard]
        rw [if_pos (Or.inl hidx), ih (idx + 1) (produced + 1) (by omega), hm1]
        rfl
      · have hm0 : m - idx = 0 := by omega
        by_cases hguard : 0 < maxN ∧ maxN ≤ produced
        · simp only [sampleSeqAux, if_pos hguard, hm0, List.take_zero]
        · have hemit : ¬ (idx < m ∨ (fun _ : Nat => false) idx = true) := by
            simp [hidx]
          simp only [sampleSeqAux, if_neg hguard]
          rw [if_neg hemit, ih (idx + 1) produced (by omega), hm0]
          have h2 : m - (idx + 1) = 0 := by omega
          rw [h2]
          simp

/-- C9: with `chance = 0` and `min = m` over an enumerated network of size
`n ≥ m` (and a `max` that is unbounded or at least `m`, as the config
invariant `sample_min ≤ sample_max` guarantees), the sampler emits exactly
the first `m` addresses of the network — `min(m, n)` addresses in total, the
forced prefix unconditionally and nothing after it. -/
theorem sampler_chance_zero_emits_min
    (network : List IP) (m maxN : Nat)
    (hn : m ≤ network.length) (hmax : maxN = 0 ∨ m ≤ maxN) :
    sampleSeq (fun _ => false) maxN m network = network.take m
    ∧ (sampleSeq (fun _ => false) maxN m network).length = min m network.length := by
  have h := sampleSeqAux_chance_zero maxN m hmax network 0 0 (by simp)
  have hseq : sampleSeq (fun _ => false) maxN m network = network.take m := by
    unfold sampleSeq
    simpa using h
  exact ⟨hseq, by rw [hseq, List.length_take]⟩

/-- Witness for C9: a /30-sized network of four addresses, `min = 2`,
`max = 8`. -/
theorem sampler_chance_zero_emits_min_witness :
    sampleSeq (fun _ => false) 8 2
        [[198, 51, 100, 0], [198, 51, 100, 1], [198, 51, 100, 2], [198, 51, 100, 3]]
      = ([[198, 51, 100, 0], [198, 51, 100, 1], [198, 51, 100, 2],
          [198, 51, 100, 3]] : List IP).take 2
    ∧ (sampleSeq (fun _ => false) 8 2
        [[198, 51, 100, 0], [198, 51, 100, 1], [198, 51, 100, 2], [198, 51, 100, 3]]).length
      = min 2 ([[198, 51, 100, 0], [198, 51, 100, 1], [198, 51, 100, 2],
          [198, 51, 100, 3]] : List IP).length :=
  sampler_chance_zero_emits_min
    [[198, 51, 100, 0], [198, 51, 100, 1], [198, 51, 100, 2], [198, 51, 100, 3]]
    2 8 (by decide) (by decide)

/-- Replacing one element changes `countP` by the predicate's change at that
position. -/
theorem countP_set_eq (p : WState → Bool) :
    ∀ (l : List WState) (i : Nat) (h : i < l.length) (v : WState),
      (l.set i v).countP p + (if p (l.get ⟨i, h⟩) then 1 else 0)
        = l.countP p + (if p v then 1 else 0) := by
  intro l
  induction l with
  | nil =>
      intro i h v
      exact absurd h (by simp)
  | cons hd tl ih =>
      intro i h v
      cases i with
      | zero =>
          have hget : (hd :: tl).get ⟨0, h⟩ = hd := rfl
          simp only [List.set_cons_zero, List.countP_cons, hget]
          omega
      | succ n =>
          have hget : (hd :: tl).get ⟨n + 1, h⟩ = tl.get ⟨n, Nat.lt_of_succ_lt_succ h⟩ := rfl
          simp only [List.set_cons_succ, List.countP_cons, hget]
          have hh := ih n (Nat.lt_of_succ_lt_succ h) v
          omega

theorem countP_executing_le_holding :
    ∀ l : List WState,
      l.countP (fun s => isExecuting s) ≤ l.countP (fun s => holdsToken s) := by
  intro l
  induction l with
  | nil => simp
  | cons hd tl ih =>
      simp only [List.countP_cons]
      have hhd : (if (fun s => isExecuting s) hd = true then 1 else 0)
          ≤ (if (fun s => holdsToken s) hd = true then 1 else 0) := by
        cases hd <;> simp [isExecuting, holdsToken]
      exact Nat.add_le_add ih hhd

theorem countP_replicate_idle (n : Nat) :
    (List.replicate n WState.idle).countP (fun s => holdsToken s) = 0 := by
  induction n with
  | zero => rfl
  | succ k ih => simp [List.replicate_succ, List.countP_cons, holdsToken, ih]

/-- One enabled scheduler step preserves the semaphore invariant. -/
theorem stepTrace_keeps_inv {cap : Nat} {g g' : SemState} {e : Nat × WEvent}
    (hstep : stepTrace cap g e = some g') (hinv : SemInv cap g) : SemInv cap g' := by
  obtain ⟨i, ev⟩ := e
  obtain ⟨hsem, hcap⟩ := hinv
  simp only [stepTrace] at hstep
  by_cases h : i < g.ws.length
  · rw [dif_pos h] at hstep
    cases hst : g.ws.get ⟨i, h⟩ with
    | idle =>
        rw [hst] at hstep
        cases ev with
        | acquire =>
            simp only [wstep] at hstep
            by_cases hlt : g.sem < cap
            · rw [if_pos hlt] at hstep
              obtain rfl := Option.some.inj hstep
              have hc := countP_set_eq (fun s => holdsToken s) g.ws i h .holding
              rw [hst] at hc
              have e1 : (if (fun s => holdsToken s) WState.idle = true then 1 else 0) = 0 := rfl
              have e2 : (if (fun s => holdsToken s) WState.holding = true then 1 else 0) = 1 := rfl
              rw [e1, e2] at hc
              refine ⟨?_, ?_⟩
              · show g.sem + 1 = (g.ws.set i .holding).countP (fun s => holdsToken s)
                omega
              · show g.sem + 1 ≤ cap
                omega
            · rw [if_neg hlt] at hstep
              exact absurd hstep (by simp)
        | execStart => simp [wstep] at hstep
        | execEnd => simp [wstep] at hstep
        | release => simp [wstep] at hstep
    | holding =>
        rw [hst] at hstep
        cases ev with
        | execStart =>
            simp only [wstep] at hstep
            obtain rfl := Option.some.inj hstep
            have hc := countP_set_eq (fun s => holdsToken s) g.ws i h .executing
            rw [hst] at hc
            have e1 : (if (fun s => holdsToken s) WState.holding = true then 1 else 0) = 1 := rfl
            have e2 : (if (fun s => holdsToken s) WState.executing = true then 1 else 0) = 1 := rfl
            rw [e1, e2] at hc
            refine ⟨?_, ?_⟩
            · show g.sem = (g.ws.set i .executing).countP (fun s => holdsToken s)
              omega
            · show g.sem ≤ cap
              omega
        | acquire => simp [wstep] at hstep
        | execEnd => simp [wstep] at hstep
        | release => simp [wstep] at hstep
    | executing =>
        rw [hst] at hstep
        cases ev with
        | execEnd =>
            simp only [wstep] at hstep
            obtain rfl := Option.some.inj hstep
            have hc := countP_set_eq (fun s => holdsToken s) g.ws i h .done
            rw [hst] at hc
            have e1 : (if (fun s => holdsToken s) WState.executing = true then 1 else 0) = 1 := rfl
            have e2 : (if (fun s => holdsToken s) WState.done = true then 1 else 0) = 1 := rfl
            rw [e1, e2] at hc
            refine ⟨?_, ?_⟩
            · show g.sem = (g.ws.set i .done).countP (fun s => holdsToken s)
              omega
            · show g.sem ≤ cap
              omega
        | acquire => simp [wstep] at hstep
        | execStart => simp [wstep] at hstep
        | release => simp [wstep] at hstep
    | done =>
        rw [hst] at hstep
        cases ev with
        | release =>
            simp only [wstep] at hstep
            obtain rfl := Option.some.inj hstep
            have hc := countP_set_eq (fun s => holdsToken s) g.ws i h .idle
            rw [hst] at hc
            have e1 : (if (fun s => holdsToken s) WState.done = true then 1 else 0) = 1 := rfl
            have e2 : (if (fun s => holdsToken s) WState.idle = true then 1 else 0) = 0 := rfl
            rw [e1, e2] at hc
            refine ⟨?_, ?_⟩
            · show g.sem - 1 = (g.ws.set i .idle).countP (fun s => holdsToken s)
              omega
            · show g.sem - 1 ≤ cap
              omega
        | acquire => simp [wstep] at hstep
        | execStart => simp [wstep] at hstep
        | execEnd => simp [wstep] at hstep
  · rw [dif_neg h] at hstep
    exact absurd hstep (by simp)

theorem runTrace_keeps_inv (cap : Nat) :
    ∀ (tr : List (Nat × WEvent)) (g0 g : SemState), SemInv cap g0 →
      runTraceFrom cap g0 tr = some g → SemInv cap g := by
  intro tr
  induction tr with
  | nil =>
      intro g0 g h0 hrun
      simp only [runTraceFrom] at hrun
      obtain rfl := Option.some.inj hrun
      exact h0
  | cons e rest ih =>
      intro g0 g h0 hrun
      simp only [runTraceFrom] at hrun
      cases hs : stepTrace cap g0 e with
      | none => rw [hs] at hrun; exact absurd hrun (by simp)
      | some g1 =>
          rw [hs] at hrun
          exact ih g1 g (stepTrace_keeps_inv hs h0) hrun

/-- C4: along every executable interleaving of worker events, the number of
workers inside `vm.ExecuteIP` never exceeds the budget
`normalizeMaxWorkers max_workers`: each probe holds a channel token from
`acquireToken` to `releaseToken`, and the buffered channel never holds more
than its capacity. -/
theorem worker_budget_bounds_inflight
    (mw : Int) (n : Nat) (tr : List (Nat × WEvent)) (g : SemState)
    (hrun : runTrace (normalizeMaxWorkers mw).toNat n tr = some g) :
    g.ws.countP (fun s => isExecuting s) ≤ (normalizeMaxWorkers mw).toNat := by
  have hinit : SemInv (normalizeMaxWorkers mw).toNat ⟨List.replicate n .idle, 0⟩ :=
    ⟨(countP_replicate_idle n).symm, Nat.zero_le _⟩
  have hinv := runTrace_keeps_inv (normalizeMaxWorkers mw).toNat tr _ g hinit hrun
  obtain ⟨hsem, hcap⟩ := hinv
  have hle := countP_executing_le_holding g.ws
  omega

/-- Witness for C4: one worker, budget 2, probe in flight. -/
theorem worker_budget_bounds_inflight_witness :
    (⟨[WState.executing], 1⟩ : SemState).ws.countP (fun s => isExecuting s)
      ≤ (normalizeMaxWorkers 2).toNat :=
  worker_budget_bounds_inflight 2 1 [(0, .acquire), (0, .execStart)]
    ⟨[WState.executing], 1⟩ (by decide)

end HeliosDNS
